import Mathlib

set_option maxRecDepth 4000

/-!
Shallow embedding of the streaming audio engine in
src/services/audioEngine.ts: text segmenter, pad-frequency selection,
WAV writer, playback scheduler, TTS retry loop, block renderer and the
session controller (warm start + cruise control), together with proofs
about the properties claimed for them.
-/

/-! ## Text segmenter (splitTextIntoChunks, audioEngine.ts lines 59-76) -/

/-- Sentence-terminal characters of the splitting regex [^.!?;\n]+[.!?;\n]+ . -/
def isTerm (c : Char) : Bool :=
  c == '.' || c == '!' || c == '?' || c == ';' || c == '\n'

/-- Whitespace, as trimmed by String.prototype.trim (restricted to the
ASCII whitespace characters relevant here). -/
def isWS (c : Char) : Bool :=
  c == ' ' || c == '\t' || c == '\n' || c == '\r'

/-- Remove every whitespace character (used to state the round-trip
property modulo inserted separators and trimming). -/
def stripWS (l : List Char) : List Char :=
  l.filter (fun c => !isWS c)

/-- JS String.prototype.trim: drop whitespace from both ends. -/
def trim (l : List Char) : List Char :=
  ((l.dropWhile isWS).reverse.dropWhile isWS).reverse

/-- Global matching of the regex [^.!?;\n]+[.!?;\n]+ : the scanner skips
characters where no match can start, then takes a maximal run of
non-terminators followed by a maximal run of terminators.  The fuel
argument (instantiated with the text length) makes the recursion
structural; each step consumes at least one character. -/
def regexMatchesAux : Nat → List Char → List (List Char)
  | 0, _ => []
  | _ + 1, [] => []
  | fuel + 1, c :: cs =>
    if isTerm c then
      regexMatchesAux fuel cs
    else
      let rest := List.dropWhile (fun x => !isTerm x) (c :: cs)
      if rest.isEmpty then []
      else
        (List.takeWhile (fun x => !isTerm x) (c :: cs) ++ List.takeWhile isTerm rest)
          :: regexMatchesAux fuel (List.dropWhile isTerm rest)

/-- text.match(/[^.!?;\n]+[.!?;\n]+/g): the list of matches ([] when the
JS call returns null). -/
def regexMatches (l : List Char) : List (List Char) :=
  regexMatchesAux l.length l

/-- The merging loop of splitTextIntoChunks: accumulate chunks into runs
of fewer than 300 characters, pushing the trimmed accumulator when the
budget would be exceeded, and pushing the final accumulator if non-empty. -/
def mergeLoop : List (List Char) → List (List Char) → List Char → List (List Char)
  | [], merged, current =>
    if current.isEmpty then merged else merged ++ [trim current]
  | chunk :: rest, merged, current =>
    if (current ++ chunk).length < 300 then
      mergeLoop rest merged (current ++ ' ' :: chunk)
    else
      mergeLoop rest (if current.isEmpty then merged else merged ++ [trim current]) chunk

/-- splitTextIntoChunks (audioEngine.ts lines 59-76). -/
def splitTextIntoChunks (text : List Char) : List (List Char) :=
  let ms := regexMatches text
  let chunks := if ms.isEmpty then [text] else ms
  let merged := mergeLoop chunks [] []
  if merged.isEmpty then [text] else merged

/-! ## Pad frequency selection (createPadBuffer, audioEngine.ts lines 8-40) -/

/-- The mood-to-base-frequency selection at the top of createPadBuffer:
a default triad, overridden by the three if-statements.  (The sample
loop of createPadBuffer only consumes the selected list.) -/
def padFrequencies (mood : String) : List ℚ :=
  let f0 : List ℚ := [146.83, 185.00, 220.00]
  let f1 : List ℚ := if mood == "warm" || mood == "nature" then
    [146.83, 185.00, 220.00, 293.66] else f0
  let f2 : List ℚ := if mood == "epic" then [98.00, 146.83, 196.00] else f1
  if mood == "deep_focus" then [110.00, 164.81, 196.00] else f2

/-! ## Durable writer (writeChunk / finalizeStorage, audioEngine.ts 416-470) -/

/-- Clamp a sample to [-1, 1] (Math.max(-1, Math.min(1, s))). -/
def clampSample (s : ℚ) : ℚ := max (-1) (min 1 s)

/-- Truncation toward zero, as JS ToInt16 applies to the scaled float. -/
def ratTrunc (q : ℚ) : ℤ := if 0 ≤ q then ⌊q⌋ else ⌈q⌉

/-- Float-to-int16 sample conversion of writeChunk:
s < 0 ? s * 0x8000 : s * 0x7FFF, after clamping. -/
def toInt16Sample (s : ℚ) : ℤ :=
  let c := clampSample s
  if c < 0 then ratTrunc (c * 32768) else ratTrunc (c * 32767)

/-- Little-endian byte pair of an int16 sample viewed through the
Int16Array backing buffer. -/
def int16Bytes (v : ℤ) : List ℕ :=
  let u := (v % 65536).toNat
  [u % 256, u / 256]

/-- Writer component of the controller state: running byte total plus the
in-memory fallback list of appended byte chunks (the OPFS branch appends
the same bytes to the file stream and keeps the same byte total). -/
structure WriterState where
  totalBytesWritten : ℕ
  memoryBuffer : List (List ℕ)
deriving DecidableEq, Repr

/-- Writer state right after initStorage. -/
def initWriter : WriterState := ⟨0, []⟩

/-- writeChunk (audioEngine.ts 416-430): convert interleaved float
samples to int16 bytes, append them, and bump totalBytesWritten. -/
def writeChunk (data : List ℚ) (st : WriterState) : WriterState :=
  let bytes := (data.map (fun s => int16Bytes (toInt16Sample s))).flatten
  { totalBytesWritten := st.totalBytesWritten + bytes.length
    memoryBuffer := st.memoryBuffer ++ [bytes] }

/-- DataView.setUint32 little-endian: the four stored bytes. -/
def setU32LE (n : ℕ) : List ℕ :=
  [n % 256, n / 256 % 256, n / 65536 % 256, n / 16777216 % 256]

/-- DataView.setUint16 little-endian: the two stored bytes. -/
def setU16LE (n : ℕ) : List ℕ := [n % 256, n / 256 % 256]

/-- writeString: the code-unit bytes of an ASCII tag. -/
def strBytes (s : String) : List ℕ := s.toList.map Char.toNat

/-- The 44-byte WAV header assembled by finalizeStorage (audioEngine.ts
435-452); the DataView writes are sequential and non-overlapping, so the
buffer is their concatenation. -/
def wavHeader (totalBytesWritten : ℕ) : List ℕ :=
  strBytes "RIFF" ++ setU32LE (36 + totalBytesWritten) ++ strBytes "WAVE" ++
  strBytes "fmt " ++ setU32LE 16 ++ setU16LE 1 ++ setU16LE 2 ++
  setU32LE 24000 ++ setU32LE (24000 * 4) ++ setU16LE 4 ++ setU16LE 16 ++
  strBytes "data" ++ setU32LE totalBytesWritten

/-- finalizeStorage, in-memory branch (audioEngine.ts 460-468): the
finalized file bytes, header followed by all appended chunks (the OPFS
branch seeks to 0 and overwrites the placeholder with the same header,
leaving the same byte layout on disk). -/
def finalizeStorage (st : WriterState) : List ℕ :=
  wavHeader st.totalBytesWritten ++ st.memoryBuffer.flatten

/-- Little-endian decoding of the first four bytes of a byte list. -/
def decodeU32LE : List ℕ → ℕ
  | b0 :: b1 :: b2 :: b3 :: _ => b0 + 256 * b1 + 65536 * b2 + 16777216 * b3
  | _ => 0

/-! ## Playback scheduler (schedulePlayback, audioEngine.ts 361-411) -/

/-- The cursor transition of one schedulePlayback call.  now is the
playback clock (audioContext.currentTime) read at entry, dur the
duration of the scheduled buffer (data.length / 2 / sampleRate), cursor
the current nextStartTime and count processedBlockCount.  Mirrors: the
gap-recovery reset to now + 0.1, the crossfade start time
max(now, nextStartTime - CROSSFADE_DURATION) for every block after the
first, and the final cursor update to startTime + buffer.duration. -/
def schedulePlayback (now dur cursor : ℚ) (count : ℕ) : ℚ :=
  let c1 := if cursor < now ∧ 0 < count then now + 0.1 else cursor
  let startTime := if 0 < count then max now (c1 - 2) else c1
  startTime + dur

/-- A sequence of schedulePlayback calls: each step supplies the clock
reading and buffer duration of one block; processedBlockCount is
incremented between calls (by processNext). -/
def schedRun (steps : List (ℚ × ℚ)) (cursor : ℚ) (count : ℕ) : ℚ × ℕ :=
  steps.foldl (fun s p => (schedulePlayback p.1 p.2 s.1 s.2, s.2 + 1)) (cursor, count)

/-- The no-lag assumption of the spec: at every call after the first,
the clock has not caught up to within the crossfade window of the
cursor, so neither the gap-recovery reset nor the max clamp fires. -/
def noLagB : List (ℚ × ℚ) → ℚ → ℕ → Bool
  | [], _, _ => true
  | (now, dur) :: rest, cursor, count =>
    (count == 0 || decide (now + 2 ≤ cursor)) &&
      noLagB rest (schedulePlayback now dur cursor count) (count + 1)

/-! ## TTS retry loop and block renderer (processBlock, audioEngine.ts 262-356)

The external synthesis capability generateSpeech is modelled as an
oracle mapping the attempt number of a chunk to the decoded PCM of a
successful call (some) or to a failure / empty response (none); both
raise the same catch branch in the code.  Audio buffers are interleaved
sample lists (PCM). -/

/-- Interleaved float PCM samples. -/
abbrev PCM := List ℚ

/-- Outcome of the per-chunk retry loop: the synthesized audio if any,
the number of generateSpeech calls made, and the backoff waits (in
seconds) performed after failures. -/
structure TtsOutcome where
  result : Option PCM
  calls : ℕ
  waits : List ℚ
deriving DecidableEq, Repr

/-- The while (attempts < 3 && !success) loop of processBlock.  The
first argument is the remaining allowed attempts (3 - attempts), the
second the attempts counter; on failure the code increments attempts and
sleeps 1000 * attempts milliseconds (that is, attempts + 1 seconds
counted from before the increment). -/
def ttsLoopAux (oracle : ℕ → Option PCM) : ℕ → ℕ → TtsOutcome
  | 0, attempts => ⟨none, attempts, []⟩
  | remaining + 1, attempts =>
    match oracle attempts with
    | some a => ⟨some a, attempts + 1, []⟩
    | none =>
      let rest := ttsLoopAux oracle remaining (attempts + 1)
      ⟨rest.result, rest.calls, ((attempts + 1 : ℕ) : ℚ) :: rest.waits⟩

/-- The retry loop for one chunk, entered with attempts = 0 and the
bound of 3 attempts. -/
def chunkTts (oracle : ℕ → Option PCM) : TtsOutcome :=
  ttsLoopAux oracle 3 0

/-- The chunk iteration of processBlock: push the buffer of every chunk
whose retry loop succeeded, in chunk order (blockChunkBuffers).  The
oracle is indexed by chunk position and attempt number. -/
def collectBuffers (oracle : ℕ → ℕ → Option PCM) : List (List Char) → ℕ → List PCM
  | [], _ => []
  | _ :: rest, i =>
    match (chunkTts (oracle i)).result with
    | some b => b :: collectBuffers oracle rest (i + 1)
    | none => collectBuffers oracle rest (i + 1)

/-- Mixing instructions of a script block (types.ts). -/
structure BlockInstructions where
  mood : String
  intensity : ℚ
  binauralFreq : Option ℚ
deriving DecidableEq, Repr

/-- A script block: text plus mixing instructions. -/
structure AudioScriptBlock where
  text : List Char
  instructions : BlockInstructions
deriving DecidableEq, Repr

/-- processBlock (audioEngine.ts 262-356): segment the text, run the
retry loop per chunk, and return null when no chunk produced audio;
otherwise stitch the buffers and offline-mix voice, pad and binaural
layers into one interleaved buffer.  The stitching and Web Audio offline
render are abstracted by the mix parameter (a deterministic function of
the collected buffers); the claims proved here depend only on whether
the result is null and on how the result flows onward. -/
def processBlock (b : AudioScriptBlock) (oracle : ℕ → ℕ → Option PCM)
    (mix : List PCM → PCM) : Option PCM :=
  let bufs := collectBuffers oracle (splitTextIntoChunks b.text) 0
  if bufs.isEmpty then none else some (mix bufs)

/-! ## Session controller (startStream / startCruiseControl / processNext,
audioEngine.ts 160-257)

The controller is modelled as a state machine emitting an event trace:
scheduling a block, writing its bytes, the onReadyToPlay callback and
each value passed to onProgress.  External nondeterminism is supplied by
oracles: per-block TTS outcomes, the per-block offline mix, and the
playback clock readings (audioContext.currentTime), one per read. -/

/-- Observable callback / scheduling events of a session. -/
inductive Ev
  | sched (idx : ℕ)
  | wrote (idx : ℕ)
  | ready
  | progress (p : ℚ)
deriving DecidableEq, Repr

/-- Mutable controller state (AudioStreamController fields used by the
pipeline).  isProcessingQueue is the reentrancy guard of the async code;
in this sequential model every processNext call completes before the
next observation, so the guard is false at every step boundary and is
omitted. -/
structure SessState where
  blockQueue : List (AudioScriptBlock × ℕ)
  processedBlockCount : ℕ
  totalBlocks : ℕ
  nextStartTime : ℚ
  writer : WriterState
  isProcessing : Bool
deriving DecidableEq, Repr

/-- processNext (audioEngine.ts 235-257): shift the next queued block,
render it, and when the result is non-null schedule playback and write
the bytes; processedBlockCount is incremented for the shifted block
either way. -/
def processNext (ttsO : ℕ → ℕ → ℕ → Option PCM) (mixO : ℕ → List PCM → PCM)
    (now : ℚ) (st : SessState) : SessState × List Ev :=
  match st.blockQueue with
  | [] => (st, [])
  | (b, idx) :: rest =>
    match processBlock b (ttsO idx) (mixO idx) with
    | some pcm =>
      let dur : ℚ := (pcm.length : ℚ) / 2 / 24000
      { st with
          blockQueue := rest
          nextStartTime := schedulePlayback now dur st.nextStartTime st.processedBlockCount
          writer := writeChunk pcm st.writer
          processedBlockCount := st.processedBlockCount + 1 }
        |> fun st2 => (st2, [Ev.sched idx, Ev.wrote idx])
    | none =>
      ({ st with blockQueue := rest,
                 processedBlockCount := st.processedBlockCount + 1 }, [])

/-- One tick of the cruise-control interval (audioEngine.ts 196-226):
when the queue is exhausted, finalize and report 100; otherwise render
the next block if the scheduled-audio buffer is under the 180 s low
watermark, then report block progress. -/
def cruiseTick (ttsO : ℕ → ℕ → ℕ → Option PCM) (mixO : ℕ → List PCM → PCM)
    (now : ℚ) (st : SessState) : SessState × List Ev × Bool :=
  if st.blockQueue.isEmpty then
    ({ st with isProcessing := false }, [Ev.progress 100], true)
  else
    let next := if st.nextStartTime - now < 180 then processNext ttsO mixO now st
                else (st, [])
    let p : ℚ := (next.1.processedBlockCount : ℚ) / (next.1.totalBlocks : ℚ) * 100
    (next.1, next.2 ++ [Ev.progress p], false)

/-- Result of running (part of) a session: final state, emitted events,
and whether the cruise-control loop reached its completion branch. -/
structure RunOut where
  state : SessState
  events : List Ev
  done : Bool
deriving DecidableEq, Repr

/-- The cruise-control loop, one tick per second, cut off after fuel
ticks (the real loop runs until cleared; every claim proved over it
holds for every fuel).  The clock oracle gives currentTime at tick t. -/
def cruiseRun (ttsO : ℕ → ℕ → ℕ → Option PCM) (mixO : ℕ → List PCM → PCM)
    (clk : ℕ → ℚ) : ℕ → ℕ → SessState → RunOut
  | 0, _, st => ⟨st, [], false⟩
  | fuel + 1, t, st =>
    let (st1, evs, fin) := cruiseTick ttsO mixO (clk t) st
    if fin then ⟨st1, evs, true⟩
    else
      let out := cruiseRun ttsO mixO clk fuel (t + 1) st1
      ⟨out.state, evs ++ out.events, out.done⟩

/-- startStream (audioEngine.ts 160-191): populate the queue, set the
cursor 0.2 s past the clock, warm-start two processNext calls with the
onReadyToPlay callback fired between them, then run cruise control.
Clock reads are clk 0 (initialization and first processNext), clk 1
(second processNext) and clk (t + 2) at cruise tick t. -/
def startStream (blocks : List AudioScriptBlock) (ttsO : ℕ → ℕ → ℕ → Option PCM)
    (mixO : ℕ → List PCM → PCM) (clk : ℕ → ℚ) (fuel : ℕ) : RunOut :=
  let st0 : SessState :=
    { blockQueue := blocks.enum.map (fun p => (p.2, p.1))
      processedBlockCount := 0
      totalBlocks := blocks.length
      nextStartTime := clk 0 + 0.2
      writer := initWriter
      isProcessing := true }
  let (st1, e1) := processNext ttsO mixO (clk 0) st0
  let (st2, e2) := processNext ttsO mixO (clk 1) st1
  let out := cruiseRun ttsO mixO clk fuel 2 st2
  ⟨out.state, e1 ++ Ev.ready :: (e2 ++ out.events), out.done⟩

/-- The progress value carried by a progress event. -/
def progressVal : Ev → Option ℚ
  | Ev.progress p => some p
  | _ => none

/-- The onProgress values of a trace, in order. -/
def progressList (evs : List Ev) : List ℚ := evs.filterMap progressVal

/-! ## Transport controls (pause / resume / close, audioEngine.ts 483-494) -/

/-- Lifecycle states of the live AudioContext. -/
inductive CtxState
  | running
  | suspended
  | closed
deriving DecidableEq, Repr

/-- The resources the transport controls touch: the cruise-control
interval handle, the AudioContext state, a count of clearInterval calls
(timer releases), and a count of close() calls rejected by an
already-closed context (the returned promise rejects; nothing is thrown
from the synchronous method and nothing is released again). -/
structure ControllerRes where
  cruiseControlInterval : Option ℕ
  clearIntervalCalls : ℕ
  ctxState : CtxState
  closeRejections : ℕ
deriving DecidableEq, Repr

/-- stopCruiseControl (audioEngine.ts 228-233): clear the interval only
when one is set, then null the handle. -/
def stopCruiseControl (s : ControllerRes) : ControllerRes :=
  match s.cruiseControlInterval with
  | some _ => { s with cruiseControlInterval := none
                       clearIntervalCalls := s.clearIntervalCalls + 1 }
  | none => s

/-- audioContext.close(): closes a live context; on an already-closed
context the promise rejects and no state changes. -/
def ctxClose (s : ControllerRes) : ControllerRes :=
  if s.ctxState = CtxState.closed then
    { s with closeRejections := s.closeRejections + 1 }
  else
    { s with ctxState := CtxState.closed }

/-- close (audioEngine.ts 491-494). -/
def close (s : ControllerRes) : ControllerRes := ctxClose (stopCruiseControl s)

/-- pause (audioEngine.ts 483-485): suspend only a running context. -/
def pause (s : ControllerRes) : ControllerRes :=
  if s.ctxState = CtxState.running then { s with ctxState := CtxState.suspended } else s

/-- resume (audioEngine.ts 487-489): resume only a suspended context. -/
def resume (s : ControllerRes) : ControllerRes :=
  if s.ctxState = CtxState.suspended then { s with ctxState := CtxState.running } else s

/-! ## C8: mood-to-frequency mapping -/

/-- C8 counterexample: the claim says no two moods select the same
frequency set, but warm and nature are two different moods mapped to the
same set by the shared warm-or-nature branch of createPadBuffer. -/
theorem padFrequencies_warm_nature_cex :
    padFrequencies "warm" = padFrequencies "nature" ∧ "warm" ≠ "nature" := by
  constructor
  · simp [padFrequencies]
  · decide

/-- C8 (amended): createPadBuffer maps the five supported moods to four
distinct frequency sets; warm and nature share one set, and every other
pair of moods selects different sets. -/
theorem padFrequencies_distinct_except_warm_nature :
    padFrequencies "warm" = padFrequencies "nature" ∧
    padFrequencies "ethereal" ≠ padFrequencies "warm" ∧
    padFrequencies "ethereal" ≠ padFrequencies "epic" ∧
    padFrequencies "ethereal" ≠ padFrequencies "deep_focus" ∧
    padFrequencies "warm" ≠ padFrequencies "epic" ∧
    padFrequencies "warm" ≠ padFrequencies "deep_focus" ∧
    padFrequencies "epic" ≠ padFrequencies "deep_focus" := by
  refine ⟨by simp [padFrequencies], ?_, ?_, ?_, ?_, ?_, ?_⟩ <;>
    (simp [padFrequencies]) <;> norm_num

/-! ## C9: idempotence of close (and pause / resume) -/

/-- C9: a second close() call is a no-op on every resource: the interval
handle is already null so clearInterval is not called again, the context
state is unchanged, and no exception escapes (in the model every
transition is a total function; the second audioContext.close() only
rejects its returned, unawaited promise).  pause() and resume() are
idempotent as well. -/
theorem close_idempotent (s : ControllerRes) :
    (close (close s)).cruiseControlInterval = (close s).cruiseControlInterval ∧
    (close (close s)).clearIntervalCalls = (close s).clearIntervalCalls ∧
    (close (close s)).ctxState = (close s).ctxState ∧
    pause (pause s) = pause s ∧
    resume (resume s) = resume s := by
  rcases s with ⟨i, c, cs, r⟩
  cases i <;> cases cs <;>
    simp [close, ctxClose, stopCruiseControl, pause, resume]

/-! ## C7: cursor monotonicity -/

/-- C7 counterexample: scheduling a 1-second block while the cursor sits
at 100 s and the clock at 0 s moves the cursor back to 99 s, although
the gap-recovery correction did not fire (the cursor had not fallen
behind the clock): the 2 s crossfade rollback exceeds the block length. -/
theorem schedulePlayback_cursor_decrease_cex :
    schedulePlayback 0 1 100 1 < 100 ∧ ¬ ((100 : ℚ) < 0) := by
  constructor
  · with_unfolding_all decide
  · with_unfolding_all decide

/-- C7 (amended): across schedulePlayback calls the cursor nextStartTime
is non-decreasing provided every scheduled block lasts at least the 2 s
crossfade window (the gap-recovery correction itself only moves the
cursor forward); a block shorter than the window can move the cursor
backwards with no correction involved. -/
theorem schedulePlayback_monotone (now dur cursor : ℚ) (count : ℕ)
    (h : 2 ≤ dur) :
    cursor ≤ schedulePlayback now dur cursor count := by
  unfold schedulePlayback
  dsimp only
  by_cases hc : cursor < now ∧ 0 < count
  · rw [if_pos hc, if_pos hc.2]
    have h1 := le_max_left now (now + 0.1 - 2)
    have h2 := hc.1
    linarith
  · rw [if_neg hc]
    by_cases hn : 0 < count
    · rw [if_pos hn]
      have := le_max_right now (cursor - 2)
      linarith
    · rw [if_neg hn]
      linarith

/-- Witness for C7's amended theorem at a concrete input. -/
theorem schedulePlayback_monotone_witness :
    (100 : ℚ) ≤ schedulePlayback 0 2 100 1 :=
  schedulePlayback_monotone 0 2 100 1 (by norm_num)

/-! ## C3: cursor advance under the no-lag assumption -/

theorem schedRun_cons (s : ℚ × ℚ) (rest : List (ℚ × ℚ)) (cursor : ℚ) (count : ℕ) :
    schedRun (s :: rest) cursor count =
      schedRun rest (schedulePlayback s.1 s.2 cursor count) (count + 1) := by
  simp [schedRun]

theorem schedRun_advance_of_pos (steps : List (ℚ × ℚ)) :
    ∀ (cursor : ℚ) (count : ℕ), 0 < count → noLagB steps cursor count = true →
      (schedRun steps cursor count).1 =
        cursor + (steps.map Prod.snd).sum - 2 * (steps.length : ℚ) := by
  induction steps with
  | nil => intro cursor count _ _; simp [schedRun]
  | cons s rest ih =>
    intro cursor count hcount h
    obtain ⟨now, dur⟩ := s
    rw [noLagB] at h
    rw [Bool.and_eq_true, Bool.or_eq_true] at h
    obtain ⟨h1, h2⟩ := h
    have hle : now + 2 ≤ cursor := by
      rcases h1 with h1 | h1
      · have hzero : count = 0 := by simpa using h1
        omega
      · exact of_decide_eq_true h1
    have hnlt : ¬ (cursor < now ∧ 0 < count) := by
      intro hco
      linarith [hco.1]
    have hmax : now ≤ cursor - 2 := by linarith
    have hstep : schedulePlayback now dur cursor count = cursor - 2 + dur := by
      unfold schedulePlayback
      dsimp only
      rw [if_neg hnlt, if_pos hcount, max_eq_right hmax]
    rw [schedRun_cons]
    dsimp only
    rw [hstep] at h2 ⊢
    rw [ih _ _ (by omega) h2]
    simp only [List.map_cons, List.sum_cons, List.length_cons]
    push_cast [Nat.cast_succ]
    ring

/-- C3: for any sequence of blocks scheduled through schedulePlayback
with the fixed 2 s overlap window, if no lag correction fires (the
cursor stays at least the window ahead of every clock reading after the
first block), the cursor after all N blocks equals the first block's
start plus sum(durations) - (N - 1) * 2; the first block has no overlap. -/
theorem schedulePlayback_cursor_advance (steps : List (ℚ × ℚ)) (cursor : ℚ)
    (hne : steps ≠ [])
    (hpos : ∀ p ∈ steps, 0 < p.2)
    (h : noLagB steps cursor 0 = true) :
    (schedRun steps cursor 0).1 =
      cursor + (steps.map Prod.snd).sum - 2 * ((steps.length - 1 : ℕ) : ℚ) := by
  obtain ⟨⟨now, dur⟩, rest, rfl⟩ : ∃ s rest, steps = s :: rest := by
    cases steps with
    | nil => exact absurd rfl hne
    | cons s rest => exact ⟨s, rest, rfl⟩
  rw [noLagB] at h
  rw [Bool.and_eq_true] at h
  have hn1 : ¬ (cursor < now ∧ 0 < 0) := by
    rintro ⟨-, h0⟩
    exact absurd h0 (lt_irrefl 0)
  have hn2 : ¬ (0 : ℕ) < 0 := lt_irrefl 0
  have hstep : schedulePlayback now dur cursor 0 = cursor + dur := by
    unfold schedulePlayback
    dsimp only
    rw [if_neg hn1, if_neg hn2]
  rw [schedRun_cons]
  dsimp only
  rw [hstep] at h ⊢
  rw [schedRun_advance_of_pos rest _ 1 (by omega) h.2]
  simp only [List.map_cons, List.sum_cons, List.length_cons, Nat.add_sub_cancel]
  ring

/-- Witness for C3 at the spec's example: three 5 s blocks starting from
cursor 0.2 end with the cursor at 0.2 + 15 - 4 = 11.2, i.e. 11 s after
the first block's start. -/
theorem schedulePlayback_cursor_advance_witness :
    (schedRun [(0, 5), (0, 5), (0, 5)] 0.2 0).1 =
      0.2 + (([(0, 5), (0, 5), (0, 5)] : List (ℚ × ℚ)).map Prod.snd).sum -
        2 * ((([(0, 5), (0, 5), (0, 5)] : List (ℚ × ℚ)).length - 1 : ℕ) : ℚ) :=
  schedulePlayback_cursor_advance [(0, 5), (0, 5), (0, 5)] 0.2
    (by simp) (by norm_num) (by with_unfolding_all decide)

/-! ## C2: WAV header size fields -/

theorem int16Bytes_length (v : ℤ) : (int16Bytes v).length = 2 := rfl

theorem writeChunk_totalBytes (data : List ℚ) (st : WriterState) :
    (writeChunk data st).totalBytesWritten = st.totalBytesWritten + 2 * data.length := by
  unfold writeChunk
  dsimp only
  congr 1
  induction data with
  | nil => simp
  | cons a l ih =>
    simp only [List.map_cons, List.flatten_cons, List.length_append, ih,
      int16Bytes_length, List.length_cons]
    omega

theorem writeChunk_memoryBytes (data : List ℚ) (st : WriterState) :
    (writeChunk data st).memoryBuffer.flatten.length =
      st.memoryBuffer.flatten.length + 2 * data.length := by
  unfold writeChunk
  dsimp only
  rw [List.flatten_append, List.length_append]
  congr 1
  have h := writeChunk_totalBytes data st
  unfold writeChunk at h
  dsimp only at h
  simp only [List.flatten_cons, List.flatten_nil, List.append_nil]
  omega

theorem foldl_writeChunk_invariant (chunks : List (List ℚ)) :
    ∀ st : WriterState,
      (chunks.foldl (fun s d => writeChunk d s) st).totalBytesWritten =
        st.totalBytesWritten + (chunks.map (fun d => 2 * d.length)).sum ∧
      (chunks.foldl (fun s d => writeChunk d s) st).memoryBuffer.flatten.length =
        st.memoryBuffer.flatten.length + (chunks.map (fun d => 2 * d.length)).sum := by
  induction chunks with
  | nil => intro st; simp
  | cons d rest ih =>
    intro st
    simp only [List.foldl_cons, List.map_cons, List.sum_cons]
    obtain ⟨h1, h2⟩ := ih (writeChunk d st)
    rw [h1, h2, writeChunk_totalBytes, writeChunk_memoryBytes]
    omega

theorem strBytes_RIFF : strBytes "RIFF" = [82, 73, 70, 70] := by decide

theorem strBytes_WAVE : strBytes "WAVE" = [87, 65, 86, 69] := by decide

theorem strBytes_fmt : strBytes "fmt " = [102, 109, 116, 32] := by decide

theorem strBytes_data : strBytes "data" = [100, 97, 116, 97] := by decide

/-- The header splits as a 40-byte prefix followed by the data-length
field. -/
theorem wavHeader_split (t : ℕ) :
    ∃ pre : List ℕ, pre.length = 40 ∧ wavHeader t = pre ++ setU32LE t ∧
      pre = strBytes "RIFF" ++ setU32LE (36 + t) ++
        (strBytes "WAVE" ++ strBytes "fmt " ++ setU32LE 16 ++ setU16LE 1 ++
          setU16LE 2 ++ setU32LE 24000 ++ setU32LE (24000 * 4) ++ setU16LE 4 ++
          setU16LE 16 ++ strBytes "data") := by
  refine ⟨_, ?_, ?_, rfl⟩
  · simp [strBytes_RIFF, strBytes_WAVE, strBytes_fmt, strBytes_data,
      setU32LE, setU16LE]
  · simp [wavHeader, List.append_assoc]

theorem decodeU32LE_setU32LE (n : ℕ) (suffix : List ℕ) (h : n < 4294967296) :
    decodeU32LE (setU32LE n ++ suffix) = n := by
  show n % 256 + 256 * (n / 256 % 256) + 65536 * (n / 65536 % 256) +
    16777216 * (n / 16777216 % 256) = n
  omega

/-- C2: after any sequence of writeChunk calls followed by
finalizeStorage, the data-length field at offset 40 equals
totalBytesWritten, which equals the sum of the byte lengths of all
appended chunks (two bytes per sample); the RIFF size field at offset 4
holds 36 plus the data length, and the finalized output is exactly 44
header bytes plus the data (sizes assumed to fit the 4-byte fields). -/
theorem finalizeStorage_header_correct (chunks : List (List ℚ))
    (h : 36 + (chunks.map (fun d => 2 * d.length)).sum < 4294967296) :
    (chunks.foldl (fun s d => writeChunk d s) initWriter).totalBytesWritten =
      (chunks.map (fun d => 2 * d.length)).sum ∧
    decodeU32LE ((finalizeStorage
        (chunks.foldl (fun s d => writeChunk d s) initWriter)).drop 40) =
      (chunks.foldl (fun s d => writeChunk d s) initWriter).totalBytesWritten ∧
    decodeU32LE ((finalizeStorage
        (chunks.foldl (fun s d => writeChunk d s) initWriter)).drop 4) =
      36 + (chunks.foldl (fun s d => writeChunk d s) initWriter).totalBytesWritten ∧
    (finalizeStorage (chunks.foldl (fun s d => writeChunk d s) initWriter)).length =
      44 + (chunks.foldl (fun s d => writeChunk d s) initWriter).totalBytesWritten := by
  obtain ⟨htot, hmem⟩ := foldl_writeChunk_invariant chunks initWriter
  rw [show initWriter.totalBytesWritten = 0 from rfl, Nat.zero_add] at htot
  rw [show initWriter.memoryBuffer.flatten.length = 0 from rfl, Nat.zero_add] at hmem
  set st := chunks.foldl (fun s d => writeChunk d s) initWriter with hst
  have hbound : st.totalBytesWritten < 4294967296 := by omega
  have hbound36 : 36 + st.totalBytesWritten < 4294967296 := by omega
  refine ⟨htot, ?_, ?_, ?_⟩
  · obtain ⟨pre, hlen, hsplit, -⟩ := wavHeader_split st.totalBytesWritten
    have h40 : (40 : ℕ) ≤ pre.length := le_of_eq hlen.symm
    rw [finalizeStorage, hsplit, List.append_assoc,
      List.drop_append_of_le_length h40, List.drop_of_length_le (le_of_eq hlen),
      List.nil_append, decodeU32LE_setU32LE _ _ hbound]
  · obtain ⟨pre, hlen, hsplit, hpre⟩ := wavHeader_split st.totalBytesWritten
    rw [finalizeStorage, hsplit, hpre]
    rw [strBytes_RIFF]
    simp only [List.append_assoc, List.cons_append, List.nil_append]
    rw [List.drop_succ_cons, List.drop_succ_cons, List.drop_succ_cons,
      List.drop_succ_cons, List.drop_zero]
    rw [decodeU32LE_setU32LE _ _ hbound36]
  · rw [finalizeStorage, List.length_append, hmem]
    obtain ⟨pre, hlen, hsplit, -⟩ := wavHeader_split st.totalBytesWritten
    rw [hsplit, List.length_append, hlen]
    simp only [setU32LE, List.length_cons, List.length_nil]
    omega

/-- Witness for C2 on a concrete two-chunk session (three samples, six
data bytes total). -/
theorem finalizeStorage_header_correct_witness :
    (([[0, 0], [0]] : List (List ℚ)).foldl (fun s d => writeChunk d s)
        initWriter).totalBytesWritten =
      (([[0, 0], [0]] : List (List ℚ)).map (fun d => 2 * d.length)).sum ∧
    decodeU32LE ((finalizeStorage
        (([[0, 0], [0]] : List (List ℚ)).foldl (fun s d => writeChunk d s)
          initWriter)).drop 40) =
      (([[0, 0], [0]] : List (List ℚ)).foldl (fun s d => writeChunk d s)
        initWriter).totalBytesWritten ∧
    decodeU32LE ((finalizeStorage
        (([[0, 0], [0]] : List (List ℚ)).foldl (fun s d => writeChunk d s)
          initWriter)).drop 4) =
      36 + (([[0, 0], [0]] : List (List ℚ)).foldl (fun s d => writeChunk d s)
        initWriter).totalBytesWritten ∧
    (finalizeStorage (([[0, 0], [0]] : List (List ℚ)).foldl
        (fun s d => writeChunk d s) initWriter)).length =
      44 + (([[0, 0], [0]] : List (List ℚ)).foldl (fun s d => writeChunk d s)
        initWriter).totalBytesWritten :=
  finalizeStorage_header_correct [[0, 0], [0]] (by norm_num)

/-! ## C6: per-chunk retry / backoff policy -/

theorem ttsLoopAux_calls_le (oracle : ℕ → Option PCM) :
    ∀ (remaining attempts : ℕ),
      (ttsLoopAux oracle remaining attempts).calls ≤ attempts + remaining := by
  intro remaining
  induction remaining with
  | zero => intro attempts; simp [ttsLoopAux]
  | succ r ih =>
    intro attempts
    unfold ttsLoopAux
    cases oracle attempts with
    | some a => simp
    | none =>
      dsimp only
      have := ih (attempts + 1)
      omega

/-- C6: for each text chunk, processBlock calls generateSpeech at most
3 times, sleeps attempt-number seconds after each failure (so 1 s then
2 s before retries two and three), stops on the first success returning
its audio, and after three failures drops the chunk (result none, three
calls, waits 1, 2, 3) while the surrounding loop still collects every
chunk whose own retry loop succeeded, so the block is not aborted. -/
theorem processBlock_retry_policy (oracle : ℕ → Option PCM) :
    (chunkTts oracle).calls ≤ 3 ∧
    (∀ k a, k < 3 → (∀ j, j < k → oracle j = none) → oracle k = some a →
      (chunkTts oracle).result = some a ∧ (chunkTts oracle).calls = k + 1 ∧
      (chunkTts oracle).waits = (List.range k).map (fun i => ((i + 1 : ℕ) : ℚ))) ∧
    ((∀ j, j < 3 → oracle j = none) →
      (chunkTts oracle).result = none ∧ (chunkTts oracle).calls = 3 ∧
      (chunkTts oracle).waits = [1, 2, 3]) ∧
    (∀ (chunkO : ℕ → ℕ → Option PCM) (chunks : List (List Char)) (i j : ℕ) (b : PCM),
      j < chunks.length → (chunkTts (chunkO (i + j))).result = some b →
      b ∈ collectBuffers chunkO chunks i) := by
  refine ⟨ttsLoopAux_calls_le oracle 3 0, ?_, ?_, ?_⟩
  · intro k a hk hfail hsucc
    interval_cases k
    · refine ⟨?_, ?_, ?_⟩ <;> simp [chunkTts, ttsLoopAux, hsucc]
    · have h0 := hfail 0 (by omega)
      refine ⟨?_, ?_, ?_⟩ <;>
        simp [chunkTts, ttsLoopAux, h0, hsucc, List.range_succ]
    · have h0 := hfail 0 (by omega)
      have h1 := hfail 1 (by omega)
      refine ⟨?_, ?_, ?_⟩ <;>
        (simp [chunkTts, ttsLoopAux, h0, h1, hsucc, List.range_succ]) <;> norm_num
  · intro hfail
    have h0 := hfail 0 (by omega)
    have h1 := hfail 1 (by omega)
    have h2 := hfail 2 (by omega)
    refine ⟨?_, ?_, ?_⟩ <;>
      simp [chunkTts, ttsLoopAux, h0, h1, h2]
  · intro chunkO chunks
    induction chunks with
    | nil =>
      intro i j b hj
      rw [List.length_nil] at hj
      omega
    | cons c rest ih =>
      intro i j b hj hres
      cases j with
      | zero =>
        rw [Nat.add_zero] at hres
        unfold collectBuffers
        rw [hres]
        exact List.mem_cons_self _ _
      | succ j =>
        have hres2 : (chunkTts (chunkO (i + 1 + j))).result = some b := by
          have : i + 1 + j = i + (j + 1) := by omega
          rw [this]
          exact hres
        have hmem := ih (i + 1) j b (by simpa using hj) hres2
        unfold collectBuffers
        cases (chunkTts (chunkO i)).result with
        | some b2 => exact List.mem_cons_of_mem _ hmem
        | none => exact hmem

/-- Witness for C6: an oracle failing twice then succeeding still
produces the chunk audio, with three calls and backoffs of 1 s and 2 s. -/
theorem processBlock_retry_policy_witness :
    (chunkTts (fun n => if n < 2 then none else some [1])).result = some [1] ∧
    (chunkTts (fun n => if n < 2 then none else some [1])).calls = 2 + 1 ∧
    (chunkTts (fun n => if n < 2 then none else some [1])).waits =
      (List.range 2).map (fun i => ((i + 1 : ℕ) : ℚ)) :=
  (processBlock_retry_policy (fun n => if n < 2 then none else some [1])).2.1 2 [1]
    (by omega) (fun j hj => if_pos hj) (by norm_num)

/-! ## C5: null render result and its handling -/

theorem collectBuffers_eq_nil_iff (chunkO : ℕ → ℕ → Option PCM) :
    ∀ (l : List (List Char)) (i : ℕ),
      collectBuffers chunkO l i = [] ↔
        ∀ j, j < l.length → (chunkTts (chunkO (i + j))).result = none := by
  intro l
  induction l with
  | nil => intro i; simp [collectBuffers]
  | cons c rest ih =>
    intro i
    unfold collectBuffers
    cases hres : (chunkTts (chunkO i)).result with
    | some b =>
      simp only [List.length_cons]
      constructor
      · intro hfalse
        exact absurd hfalse (List.cons_ne_nil _ _)
      · intro hall
        have h0 := hall 0 (by omega)
        rw [Nat.add_zero] at h0
        rw [hres] at h0
        exact absurd h0 (by simp)
    | none =>
      rw [ih (i + 1)]
      simp only [List.length_cons]
      constructor
      · intro hall j hj
        cases j with
        | zero =>
          rw [Nat.add_zero, hres]
        | succ j =>
          have : i + (j + 1) = i + 1 + j := by omega
          rw [this]
          exact hall j (by omega)
      · intro hall j hj
        have : i + 1 + j = i + (j + 1) := by omega
        rw [this]
        exact hall (j + 1) (by omega)

/-- C5: processBlock returns null exactly when no chunk of the block was
successfully synthesized, and on a null result processNext schedules no
playback, writes no bytes, emits no events, and simply advances to the
next queued block (counting the block as processed) instead of aborting
the session. -/
theorem processBlock_null_iff (b : AudioScriptBlock) (chunkO : ℕ → ℕ → Option PCM)
    (mix : List PCM → PCM) :
    (processBlock b chunkO mix = none ↔
      ∀ j, j < (splitTextIntoChunks b.text).length →
        (chunkTts (chunkO j)).result = none) ∧
    (∀ (ttsO : ℕ → ℕ → ℕ → Option PCM) (mixO : ℕ → List PCM → PCM) (now : ℚ)
        (st : SessState) (idx : ℕ) (rest : List (AudioScriptBlock × ℕ)),
      st.blockQueue = (b, idx) :: rest →
      processBlock b (ttsO idx) (mixO idx) = none →
      processNext ttsO mixO now st =
        ({ st with blockQueue := rest,
                   processedBlockCount := st.processedBlockCount + 1 }, [])) := by
  constructor
  · have hiff := collectBuffers_eq_nil_iff chunkO (splitTextIntoChunks b.text) 0
    simp only [Nat.zero_add] at hiff
    unfold processBlock
    dsimp only
    by_cases hc : (collectBuffers chunkO (splitTextIntoChunks b.text) 0).isEmpty
    · rw [if_pos hc]
      rw [List.isEmpty_iff] at hc
      exact iff_of_true rfl (hiff.mp hc)
    · rw [if_neg hc]
      rw [List.isEmpty_iff] at hc
      exact iff_of_false (by simp) (fun hall => hc (hiff.mpr hall))
  · intro ttsO mixO now st idx rest hq hnull
    unfold processNext
    rw [hq]
    dsimp only
    rw [hnull]

/-- Witness for C5 at a concrete block whose synthesis always fails:
processNext pops it, emits nothing, and moves on. -/
theorem processBlock_null_iff_witness :
    processNext (fun _ _ _ => none) (fun _ bufs => bufs.flatten) 0
        { blockQueue := [(⟨['h', 'i'], ⟨"warm", 0.5, none⟩⟩, 0)],
          processedBlockCount := 0, totalBlocks := 1, nextStartTime := 0.2,
          writer := initWriter, isProcessing := true } =
      ({ blockQueue := [], processedBlockCount := 0 + 1, totalBlocks := 1,
         nextStartTime := 0.2, writer := initWriter, isProcessing := true }, []) :=
  (processBlock_null_iff ⟨['h', 'i'], ⟨"warm", 0.5, none⟩⟩ (fun _ _ => none)
      (fun bufs => bufs.flatten)).2
    (fun _ _ _ => none) (fun _ bufs => bufs.flatten) 0 _ 0 [] rfl
    (by with_unfolding_all decide)

/-! ## C4: the onReadyToPlay callback -/

theorem processNext_events_shape (ttsO : ℕ → ℕ → ℕ → Option PCM)
    (mixO : ℕ → List PCM → PCM) (now : ℚ) (st : SessState) :
    (processNext ttsO mixO now st).2 = [] ∨
      ∃ i, (processNext ttsO mixO now st).2 = [Ev.sched i, Ev.wrote i] := by
  rcases hq : st.blockQueue with _ | ⟨⟨b, idx⟩, rest⟩
  · left
    unfold processNext
    rw [hq]
  · rcases hpb : processBlock b (ttsO idx) (mixO idx) with _ | pcm
    · left
      unfold processNext
      rw [hq]
      dsimp only
      rw [hpb]
    · right
      refine ⟨idx, ?_⟩
      unfold processNext
      rw [hq]
      dsimp only
      rw [hpb]

theorem ready_not_mem_processNext (ttsO : ℕ → ℕ → ℕ → Option PCM)
    (mixO : ℕ → List PCM → PCM) (now : ℚ) (st : SessState) :
    Ev.ready ∉ (processNext ttsO mixO now st).2 := by
  rcases processNext_events_shape ttsO mixO now st with h | ⟨i, h⟩ <;>
    simp [h]

theorem ready_not_mem_cruiseRun (ttsO : ℕ → ℕ → ℕ → Option PCM)
    (mixO : ℕ → List PCM → PCM) (clk : ℕ → ℚ) :
    ∀ (fuel t : ℕ) (st : SessState),
      Ev.ready ∉ (cruiseRun ttsO mixO clk fuel t st).events := by
  intro fuel
  induction fuel with
  | zero => intro t st; simp [cruiseRun]
  | succ fuel ih =>
    intro t st
    unfold cruiseRun cruiseTick
    by_cases hq : st.blockQueue.isEmpty
    · rw [if_pos hq]
      simp
    · rw [if_neg hq]
      dsimp only
      rw [if_neg (by simp)]
      dsimp only
      intro hmem
      rw [List.mem_append] at hmem
      rcases hmem with hmem | hmem
      · rw [List.mem_append] at hmem
        rcases hmem with hmem | hmem
        · by_cases hw : st.nextStartTime - clk t < 180
          · rw [if_pos hw] at hmem
            exact ready_not_mem_processNext ttsO mixO (clk t) st hmem
          · rw [if_neg hw] at hmem
            simp at hmem
        · simp at hmem
      · exact ih (t + 1) _ hmem

theorem count_ready_eq_zero_of_not_mem {l : List Ev} (h : Ev.ready ∉ l) :
    l.count Ev.ready = 0 :=
  List.count_eq_zero.mpr h

/-- C4 (amended): in every session the onReadyToPlay callback fires
exactly once, right after the first processNext of the warm start; when
the first block renders successfully its audio is scheduled before the
callback, but when the first block renders null (all its synthesis
failed) the callback still fires without any audio having been
scheduled. -/
theorem startStream_ready_once (blocks : List AudioScriptBlock)
    (ttsO : ℕ → ℕ → ℕ → Option PCM) (mixO : ℕ → List PCM → PCM)
    (clk : ℕ → ℚ) (fuel : ℕ) :
    ((startStream blocks ttsO mixO clk fuel).events.count Ev.ready = 1) ∧
    (∀ b0 rest pcm, blocks = b0 :: rest →
      processBlock b0 (ttsO 0) (mixO 0) = some pcm →
      ∃ l1 l2, (startStream blocks ttsO mixO clk fuel).events = l1 ++ Ev.ready :: l2 ∧
        Ev.sched 0 ∈ l1) := by
  constructor
  · unfold startStream
    dsimp only
    rw [List.count_append, List.count_cons, List.count_append]
    rw [count_ready_eq_zero_of_not_mem (ready_not_mem_processNext _ _ _ _),
      count_ready_eq_zero_of_not_mem (ready_not_mem_processNext _ _ _ _),
      count_ready_eq_zero_of_not_mem (ready_not_mem_cruiseRun _ _ _ _ _ _)]
    simp
  · intro b0 rest pcm hblocks hsome
    subst hblocks
    unfold startStream
    dsimp only
    have hqueue : ((b0 :: rest).enum.map (fun p => (p.2, p.1))) =
        (b0, 0) :: ((List.enumFrom 1 rest).map (fun p => (p.2, p.1))) := by
      rw [show (b0 :: rest).enum = (0, b0) :: List.enumFrom 1 rest from rfl]
      rw [List.map_cons]
    rw [hqueue]
    unfold processNext
    dsimp only
    rw [hsome]
    dsimp only
    refine ⟨[Ev.sched 0, Ev.wrote 0], _, rfl, ?_⟩
    simp

/-- Witness for C4's amended theorem: in a session whose single block
renders successfully, the callback is preceded by that block's
scheduling. -/
theorem startStream_ready_once_witness :
    ∃ l1 l2,
      (startStream [⟨['h', 'i'], ⟨"warm", 0.5, none⟩⟩] (fun _ _ _ => some [0, 0])
        (fun _ bufs => bufs.flatten) (fun _ => 0) 1).events = l1 ++ Ev.ready :: l2 ∧
      Ev.sched 0 ∈ l1 :=
  (startStream_ready_once [⟨['h', 'i'], ⟨"warm", 0.5, none⟩⟩]
      (fun _ _ _ => some [0, 0]) (fun _ bufs => bufs.flatten) (fun _ => 0) 1).2
    ⟨['h', 'i'], ⟨"warm", 0.5, none⟩⟩ [] [0, 0] rfl
    (by with_unfolding_all decide)

/-- C4 counterexample: when every synthesis attempt for the only block
fails, the session trace is exactly [ready, progress 100]: onReadyToPlay
fires although no audio was ever scheduled, refuting the claim that it
fires only after the first block's audio is on the timeline. -/
theorem startStream_ready_without_sched_cex :
    (startStream [⟨['h', 'i'], ⟨"warm", 0.5, none⟩⟩] (fun _ _ _ => none)
      (fun _ bufs => bufs.flatten) (fun _ => 0) 1).events =
        [Ev.ready, Ev.progress 100] ∧
    ∀ i, Ev.sched i ∉
      (startStream [⟨['h', 'i'], ⟨"warm", 0.5, none⟩⟩] (fun _ _ _ => none)
        (fun _ bufs => bufs.flatten) (fun _ => 0) 1).events := by
  have h : (startStream [⟨['h', 'i'], ⟨"warm", 0.5, none⟩⟩] (fun _ _ _ => none)
      (fun _ bufs => bufs.flatten) (fun _ => 0) 1).events =
        [Ev.ready, Ev.progress 100] := by
    with_unfolding_all decide
  refine ⟨h, ?_⟩
  intro i
  rw [h]
  simp

/-! ## C10: onProgress values -/

theorem progressList_append (l1 l2 : List Ev) :
    progressList (l1 ++ l2) = progressList l1 ++ progressList l2 := by
  simp [progressList]

theorem progressList_processNext (ttsO : ℕ → ℕ → ℕ → Option PCM)
    (mixO : ℕ → List PCM → PCM) (now : ℚ) (st : SessState) :
    progressList (processNext ttsO mixO now st).2 = [] := by
  rcases processNext_events_shape ttsO mixO now st with h | ⟨i, h⟩ <;>
    simp [h, progressList, progressVal]

theorem processNext_state (ttsO : ℕ → ℕ → ℕ → Option PCM)
    (mixO : ℕ → List PCM → PCM) (now : ℚ) (st : SessState) :
    (processNext ttsO mixO now st).1.totalBlocks = st.totalBlocks ∧
    st.processedBlockCount ≤ (processNext ttsO mixO now st).1.processedBlockCount ∧
    (processNext ttsO mixO now st).1.processedBlockCount +
        (processNext ttsO mixO now st).1.blockQueue.length =
      st.processedBlockCount + st.blockQueue.length := by
  rcases hq : st.blockQueue with _ | ⟨⟨b, idx⟩, rest⟩
  · unfold processNext
    rw [hq]
    exact ⟨rfl, le_refl _, by rw [hq]⟩
  · rcases hpb : processBlock b (ttsO idx) (mixO idx) with _ | pcm
    · unfold processNext
      rw [hq]
      dsimp only
      rw [hpb]
      dsimp only
      refine ⟨rfl, by omega, ?_⟩
      simp only [List.length_cons]
      omega
    · unfold processNext
      rw [hq]
      dsimp only
      rw [hpb]
      dsimp only
      refine ⟨rfl, by omega, ?_⟩
      simp only [List.length_cons]
      omega

theorem ratio_nonneg_le (c t : ℕ) (h : c ≤ t) :
    0 ≤ (c : ℚ) / (t : ℚ) * 100 ∧ (c : ℚ) / (t : ℚ) * 100 ≤ 100 := by
  constructor
  · positivity
  · rcases Nat.eq_zero_or_pos t with ht | ht
    · subst ht
      simp
    · have htq : (0 : ℚ) < t := by exact_mod_cast ht
      have h1 : (c : ℚ) / t ≤ 1 := (div_le_one htq).mpr (by exact_mod_cast h)
      have h2 := mul_le_mul_of_nonneg_right h1 (by norm_num : (0 : ℚ) ≤ 100)
      linarith

theorem ratio_mono (c c2 t : ℕ) (h : c ≤ c2) :
    (c : ℚ) / (t : ℚ) * 100 ≤ (c2 : ℚ) / (t : ℚ) * 100 := by
  rcases Nat.eq_zero_or_pos t with ht | ht
  · subst ht
    simp
  · have htq : (0 : ℚ) < t := by exact_mod_cast ht
    have h1 : (c : ℚ) / t ≤ (c2 : ℚ) / t :=
      (div_le_div_iff_of_pos_right htq).mpr (by exact_mod_cast h)
    exact mul_le_mul_of_nonneg_right h1 (by norm_num)

theorem cruiseTick_of_empty (ttsO : ℕ → ℕ → ℕ → Option PCM)
    (mixO : ℕ → List PCM → PCM) (now : ℚ) (st : SessState)
    (hq : st.blockQueue.isEmpty = true) :
    cruiseTick ttsO mixO now st =
      ({ st with isProcessing := false }, [Ev.progress 100], true) := by
  unfold cruiseTick
  rw [if_pos hq]

theorem cruiseTick_of_nonempty (ttsO : ℕ → ℕ → ℕ → Option PCM)
    (mixO : ℕ → List PCM → PCM) (now : ℚ) (st : SessState)
    (hq : st.blockQueue.isEmpty = false) :
    cruiseTick ttsO mixO now st =
      ((if st.nextStartTime - now < 180 then processNext ttsO mixO now st
          else (st, [])).1,
        (if st.nextStartTime - now < 180 then processNext ttsO mixO now st
          else (st, [])).2 ++
          [Ev.progress
            (((if st.nextStartTime - now < 180 then processNext ttsO mixO now st
                else (st, [])).1.processedBlockCount : ℚ) /
              ((if st.nextStartTime - now < 180 then processNext ttsO mixO now st
                else (st, [])).1.totalBlocks : ℚ) * 100)],
        false) := by
  unfold cruiseTick
  rw [if_neg (by simp [hq])]

theorem cruiseRun_succ (ttsO : ℕ → ℕ → ℕ → Option PCM)
    (mixO : ℕ → List PCM → PCM) (clk : ℕ → ℚ) (fuel t : ℕ) (st : SessState) :
    cruiseRun ttsO mixO clk (fuel + 1) t st =
      if (cruiseTick ttsO mixO (clk t) st).2.2 then
        ⟨(cruiseTick ttsO mixO (clk t) st).1,
          (cruiseTick ttsO mixO (clk t) st).2.1, true⟩
      else
        ⟨(cruiseRun ttsO mixO clk fuel (t + 1)
            (cruiseTick ttsO mixO (clk t) st).1).state,
          (cruiseTick ttsO mixO (clk t) st).2.1 ++
            (cruiseRun ttsO mixO clk fuel (t + 1)
              (cruiseTick ttsO mixO (clk t) st).1).events,
          (cruiseRun ttsO mixO clk fuel (t + 1)
            (cruiseTick ttsO mixO (clk t) st).1).done⟩ := by
  rcases hct : cruiseTick ttsO mixO (clk t) st with ⟨st1, evs, fin⟩
  conv_lhs => unfold cruiseRun
  rw [hct]

theorem cruiseRun_progress (ttsO : ℕ → ℕ → ℕ → Option PCM)
    (mixO : ℕ → List PCM → PCM) (clk : ℕ → ℚ) :
    ∀ (fuel t : ℕ) (st : SessState),
      st.processedBlockCount + st.blockQueue.length = st.totalBlocks →
      (∀ p ∈ progressList (cruiseRun ttsO mixO clk fuel t st).events,
        (st.processedBlockCount : ℚ) / (st.totalBlocks : ℚ) * 100 ≤ p ∧
          0 ≤ p ∧ p ≤ 100) ∧
      List.Chain' (· ≤ ·) (progressList (cruiseRun ttsO mixO clk fuel t st).events) ∧
      ((cruiseRun ttsO mixO clk fuel t st).done = true →
        (progressList (cruiseRun ttsO mixO clk fuel t st).events).getLast? =
          some 100) := by
  intro fuel
  induction fuel with
  | zero =>
    intro t st hinv
    simp [cruiseRun, progressList]
  | succ fuel ih =>
    intro t st hinv
    by_cases hq : st.blockQueue.isEmpty
    · rw [cruiseRun_succ, cruiseTick_of_empty ttsO mixO (clk t) st hq]
      dsimp only
      rw [if_pos rfl]
      have hc_le : st.processedBlockCount ≤ st.totalBlocks := by omega
      have hb := ratio_nonneg_le st.processedBlockCount st.totalBlocks hc_le
      refine ⟨?_, ?_, ?_⟩
      · intro p hp
        simp only [progressList, progressVal, List.filterMap] at hp
        simp at hp
        subst hp
        exact ⟨hb.2, by norm_num, le_refl 100⟩
      · simp [progressList, progressVal]
      · intro _
        simp [progressList, progressVal]
    · rw [cruiseRun_succ,
        cruiseTick_of_nonempty ttsO mixO (clk t) st (Bool.not_eq_true _ ▸ hq)]
      dsimp only
      rw [if_neg (by simp)]
      dsimp only
      set next := if st.nextStartTime - clk t < 180 then
        processNext ttsO mixO (clk t) st else (st, []) with hnext
      have hstate : next.1.totalBlocks = st.totalBlocks ∧
          st.processedBlockCount ≤ next.1.processedBlockCount ∧
          next.1.processedBlockCount + next.1.blockQueue.length =
            st.processedBlockCount + st.blockQueue.length := by
        rw [hnext]
        by_cases hw : st.nextStartTime - clk t < 180
        · rw [if_pos hw]
          exact processNext_state ttsO mixO (clk t) st
        · rw [if_neg hw]
          exact ⟨rfl, le_refl _, rfl⟩
      have hpl : progressList next.2 = [] := by
        rw [hnext]
        by_cases hw : st.nextStartTime - clk t < 180
        · rw [if_pos hw]
          exact progressList_processNext ttsO mixO (clk t) st
        · rw [if_neg hw]
          rfl
      have hinv2 : next.1.processedBlockCount + next.1.blockQueue.length =
          next.1.totalBlocks := by
        rw [hstate.1, hstate.2.2]
        exact hinv
      obtain ⟨ihall, ihchain, ihdone⟩ := ih (t + 1) next.1 hinv2
      have hplist : progressList ((next.2 ++
          [Ev.progress ((next.1.processedBlockCount : ℚ) /
            (next.1.totalBlocks : ℚ) * 100)]) ++
          (cruiseRun ttsO mixO clk fuel (t + 1) next.1).events) =
          ((next.1.processedBlockCount : ℚ) / (next.1.totalBlocks : ℚ) * 100) ::
            progressList (cruiseRun ttsO mixO clk fuel (t + 1) next.1).events := by
        rw [progressList_append, progressList_append, hpl]
        simp [progressList, progressVal]
      have hratio_mono : (st.processedBlockCount : ℚ) / (st.totalBlocks : ℚ) * 100 ≤
          (next.1.processedBlockCount : ℚ) / (next.1.totalBlocks : ℚ) * 100 := by
        rw [hstate.1]
        exact ratio_mono _ _ _ hstate.2.1
      have hbounds := ratio_nonneg_le next.1.processedBlockCount
        next.1.totalBlocks (by omega)
      refine ⟨?_, ?_, ?_⟩
      · intro p hp
        rw [hplist] at hp
        rcases List.mem_cons.mp hp with hp | hp
        · subst hp
          exact ⟨hratio_mono, hbounds.1, hbounds.2⟩
        · obtain ⟨hle, hb0, hb100⟩ := ihall p hp
          exact ⟨le_trans hratio_mono hle, hb0, hb100⟩
      · rw [hplist]
        rw [List.chain'_cons']
        constructor
        · intro y hy
          have hymem := List.mem_of_mem_head? hy
          exact (ihall y hymem).1
        · exact ihchain
      · intro hdone
        have hlast := ihdone hdone
        rw [hplist]
        rcases hrec : progressList (cruiseRun ttsO mixO clk fuel (t + 1)
            next.1).events with _ | ⟨x, xs⟩
        · rw [hrec] at hlast
          simp at hlast
        · rw [hrec] at hlast
          rw [List.getLast?_cons_cons]
          exact hlast

/-- C10: every value handed to onProgress lies in [0, 100], the reported
sequence is non-decreasing across the session, and when the cruise loop
reaches the exhausted-queue branch the final reported value is exactly
100. -/
theorem onProgress_bounded_monotone (blocks : List AudioScriptBlock)
    (ttsO : ℕ → ℕ → ℕ → Option PCM) (mixO : ℕ → List PCM → PCM)
    (clk : ℕ → ℚ) (fuel : ℕ) :
    (∀ p ∈ progressList (startStream blocks ttsO mixO clk fuel).events,
      0 ≤ p ∧ p ≤ 100) ∧
    List.Chain' (· ≤ ·)
      (progressList (startStream blocks ttsO mixO clk fuel).events) ∧
    ((startStream blocks ttsO mixO clk fuel).done = true →
      (progressList (startStream blocks ttsO mixO clk fuel).events).getLast? =
        some 100) := by
  unfold startStream
  dsimp only
  set st0 : SessState :=
    { blockQueue := blocks.enum.map (fun p => (p.2, p.1))
      processedBlockCount := 0
      totalBlocks := blocks.length
      nextStartTime := clk 0 + 0.2
      writer := initWriter
      isProcessing := true } with hst0
  have hinv0 : st0.processedBlockCount + st0.blockQueue.length = st0.totalBlocks := by
    rw [hst0]
    simp
  have hs1 := processNext_state ttsO mixO (clk 0) st0
  set st1 := (processNext ttsO mixO (clk 0) st0).1 with hst1
  have hinv1 : st1.processedBlockCount + st1.blockQueue.length = st1.totalBlocks := by
    rw [hs1.1, hs1.2.2]
    exact hinv0
  have hs2 := processNext_state ttsO mixO (clk 1) st1
  set st2 := (processNext ttsO mixO (clk 1) st1).1 with hst2
  have hinv2 : st2.processedBlockCount + st2.blockQueue.length = st2.totalBlocks := by
    rw [hs2.1, hs2.2.2]
    exact hinv1
  obtain ⟨hall, hchain, hdone⟩ := cruiseRun_progress ttsO mixO clk fuel 2 st2 hinv2
  have hplist : progressList ((processNext ttsO mixO (clk 0) st0).2 ++
      Ev.ready :: ((processNext ttsO mixO (clk 1) st1).2 ++
        (cruiseRun ttsO mixO clk fuel 2 st2).events)) =
      progressList (cruiseRun ttsO mixO clk fuel 2 st2).events := by
    rw [progressList_append]
    rw [progressList_processNext]
    rw [List.nil_append]
    show progressList (Ev.ready :: _) = _
    rw [show progressList (Ev.ready :: ((processNext ttsO mixO (clk 1) st1).2 ++
        (cruiseRun ttsO mixO clk fuel 2 st2).events)) =
      progressList ((processNext ttsO mixO (clk 1) st1).2 ++
        (cruiseRun ttsO mixO clk fuel 2 st2).events) from by
        simp [progressList, progressVal]]
    rw [progressList_append, progressList_processNext, List.nil_append]
  rw [hplist]
  exact ⟨fun p hp => (hall p hp).2, hchain, hdone⟩

/-- Witness for C10: an empty script completes on the first tick and the
single reported value is the final 100. -/
theorem onProgress_bounded_monotone_witness :
    (progressList (startStream [] (fun _ _ _ => none)
      (fun _ bufs => bufs.flatten) (fun _ => 0) 1).events).getLast? = some 100 :=
  (onProgress_bounded_monotone [] (fun _ _ _ => none)
      (fun _ bufs => bufs.flatten) (fun _ => 0) 1).2.2
    (by with_unfolding_all decide)

/-! ## C1: segmenter round-trip -/

theorem dropWhile_length_le (p : Char → Bool) (l : List Char) :
    (l.dropWhile p).length ≤ l.length := by
  induction l with
  | nil => simp
  | cons c cs ih =>
    rw [List.dropWhile_cons]
    by_cases hp : p c
    · rw [if_pos hp]
      rw [List.length_cons]
      omega
    · rw [if_neg hp]

theorem dropWhile_head_false (p : Char → Bool) :
    ∀ (l : List Char) (a : Char) (as : List Char),
      l.dropWhile p = a :: as → p a = false := by
  intro l
  induction l with
  | nil =>
    intro a as h
    simp at h
  | cons c cs ih =>
    intro a as h
    rw [List.dropWhile_cons] at h
    by_cases hp : p c
    · rw [if_pos hp] at h
      exact ih a as h
    · rw [if_neg hp] at h
      injection h with h1 h2
      subst h1
      exact Bool.eq_false_iff.mpr hp

theorem regexMatchesAux_structure :
    ∀ (fuel : ℕ) (l : List Char), l.length ≤ fuel →
      ∃ lead tail, (∀ c ∈ lead, isTerm c = true) ∧ (∀ c ∈ tail, isTerm c = false) ∧
        l = lead ++ (regexMatchesAux fuel l).flatten ++ tail := by
  intro fuel
  induction fuel with
  | zero =>
    intro l hl
    have hnil : l = [] := List.length_eq_zero.mp (Nat.le_zero.mp hl)
    subst hnil
    exact ⟨[], [], by simp, by simp, by simp [regexMatchesAux]⟩
  | succ fuel ih =>
    intro l hl
    cases l with
    | nil => exact ⟨[], [], by simp, by simp, by simp [regexMatchesAux]⟩
    | cons c cs =>
      rw [List.length_cons] at hl
      have hcs : cs.length ≤ fuel := by omega
      by_cases ht : isTerm c = true
      · have hred : regexMatchesAux (fuel + 1) (c :: cs) = regexMatchesAux fuel cs := by
          conv_lhs => unfold regexMatchesAux
          rw [if_pos ht]
        obtain ⟨lead, tail, h1, h2, heq⟩ := ih cs hcs
        simp only [List.append_assoc] at heq
        refine ⟨c :: lead, tail, ?_, h2, ?_⟩
        · intro x hx
          rcases List.mem_cons.mp hx with rfl | hx
          · exact ht
          · exact h1 x hx
        · rw [hred]
          simp only [List.cons_append, List.append_assoc]
          exact congrArg (List.cons c) heq
      · have htf : isTerm c = false := Bool.eq_false_iff.mpr ht
        cases hre : List.dropWhile (fun x => !isTerm x) (c :: cs) with
        | nil =>
          have hred : regexMatchesAux (fuel + 1) (c :: cs) = [] := by
            conv_lhs => unfold regexMatchesAux
            rw [if_neg ht]
            dsimp only
            rw [hre]
            rfl
          have hnoterm : ∀ x ∈ c :: cs, isTerm x = false := by
            intro x hx
            have hall := List.dropWhile_eq_nil_iff.mp hre x hx
            simpa using hall
          exact ⟨[], c :: cs, by simp, hnoterm, by simp [hred]⟩
        | cons r rs =>
          have hred : regexMatchesAux (fuel + 1) (c :: cs) =
              (List.takeWhile (fun x => !isTerm x) (c :: cs) ++
                List.takeWhile isTerm (r :: rs)) ::
                regexMatchesAux fuel (List.dropWhile isTerm (r :: rs)) := by
            conv_lhs => unfold regexMatchesAux
            rw [if_neg ht]
            dsimp only
            rw [hre]
            rw [List.isEmpty_cons]
            rfl
          have hlen2 : (List.dropWhile isTerm (r :: rs)).length ≤ fuel := by
            have hd1 : List.dropWhile (fun x => !isTerm x) (c :: cs) =
                List.dropWhile (fun x => !isTerm x) cs := by
              rw [List.dropWhile_cons, if_pos (by simp [htf])]
            have hl1 : (r :: rs).length ≤ cs.length := by
              rw [hd1] at hre
              rw [← hre]
              exact dropWhile_length_le _ cs
            have hl2 : (List.dropWhile isTerm (r :: rs)).length ≤ (r :: rs).length :=
              dropWhile_length_le _ _
            omega
          obtain ⟨lead2, tail2, hl2, ht2, heq2⟩ :=
            ih (List.dropWhile isTerm (r :: rs)) hlen2
          have hlead2 : lead2 = [] := by
            cases hld : lead2 with
            | nil => rfl
            | cons d ds =>
              exfalso
              rw [hld] at heq2 hl2
              have hd_term : isTerm d = true := hl2 d (List.mem_cons_self d ds)
              have hshape := heq2
              simp only [List.cons_append] at hshape
              have hd_false : isTerm d = false :=
                dropWhile_head_false isTerm (r :: rs) d _ hshape
              rw [hd_term] at hd_false
              simp at hd_false
          rw [hlead2, List.nil_append] at heq2
          refine ⟨[], tail2, by simp, ht2, ?_⟩
          rw [hred]
          simp only [List.flatten_cons, List.nil_append]
          have e1 : c :: cs = List.takeWhile (fun x => !isTerm x) (c :: cs) ++ (r :: rs) := by
            conv_lhs => rw [← List.takeWhile_append_dropWhile (fun x => !isTerm x) (c :: cs)]
            rw [hre]
          have e2 : r :: rs = List.takeWhile isTerm (r :: rs) ++
              List.dropWhile isTerm (r :: rs) := by
            conv_lhs => rw [← List.takeWhile_append_dropWhile isTerm (r :: rs)]
          conv_lhs => rw [e1, e2, heq2]
          simp [List.append_assoc]

theorem regexMatches_structure (l : List Char) :
    ∃ lead tail, (∀ c ∈ lead, isTerm c = true) ∧ (∀ c ∈ tail, isTerm c = false) ∧
      l = lead ++ (regexMatches l).flatten ++ tail :=
  regexMatchesAux_structure l.length l (le_refl _)

theorem regexMatches_eq_nil_of_noTerm (l : List Char)
    (h : ∀ c ∈ l, isTerm c = false) : regexMatches l = [] := by
  cases l with
  | nil => rfl
  | cons c cs =>
    show regexMatchesAux (c :: cs).length (c :: cs) = []
    rw [List.length_cons]
    conv_lhs => unfold regexMatchesAux
    rw [if_neg (by simp [h c (List.mem_cons_self c cs)])]
    dsimp only
    rw [List.dropWhile_eq_nil_iff.mpr (by intro x hx; simp [h x hx])]
    rfl

theorem stripWS_append (l1 l2 : List Char) :
    stripWS (l1 ++ l2) = stripWS l1 ++ stripWS l2 := by
  simp [stripWS]

theorem stripWS_dropWhile_ws (l : List Char) :
    stripWS (l.dropWhile isWS) = stripWS l := by
  induction l with
  | nil => rfl
  | cons c cs ih =>
    rw [List.dropWhile_cons]
    by_cases hc : isWS c
    · rw [if_pos hc, ih]
      simp [stripWS, List.filter_cons, hc]
    · rw [if_neg hc]

theorem stripWS_reverse (l : List Char) :
    stripWS l.reverse = (stripWS l).reverse :=
  List.filter_reverse _ l

theorem stripWS_trim (l : List Char) : stripWS (trim l) = stripWS l := by
  unfold trim
  rw [stripWS_reverse, stripWS_dropWhile_ws, stripWS_reverse,
    stripWS_dropWhile_ws, List.reverse_reverse]

theorem isWS_space : isWS ' ' = true := rfl

theorem stripWS_cons_space (l : List Char) : stripWS (' ' :: l) = stripWS l := by
  simp [stripWS, List.filter_cons, isWS_space]

theorem trim_cons_space (l : List Char) : trim (' ' :: l) = trim l := by
  unfold trim
  rw [List.dropWhile_cons, if_pos isWS_space]

theorem mergeLoop_content :
    ∀ (chunks merged : List (List Char)) (current : List Char),
      stripWS (mergeLoop chunks merged current).flatten =
        stripWS (merged.flatten ++ current ++ chunks.flatten) := by
  intro chunks
  induction chunks with
  | nil =>
    intro merged current
    unfold mergeLoop
    by_cases hc : current.isEmpty
    · rw [if_pos hc]
      rw [List.isEmpty_iff] at hc
      subst hc
      simp
    · rw [if_neg hc]
      simp [stripWS_append, stripWS_trim]
  | cons chunk rest ih =>
    intro merged current
    unfold mergeLoop
    by_cases hlen : (current ++ chunk).length < 300
    · rw [if_pos hlen, ih]
      simp only [List.flatten_cons, stripWS_append, stripWS_cons_space,
        List.append_assoc]
    · rw [if_neg hlen]
      by_cases hc : current.isEmpty
      · rw [if_pos hc, ih]
        rw [List.isEmpty_iff] at hc
        subst hc
        simp [List.flatten_cons, List.append_assoc]
      · rw [if_neg hc, ih]
        simp [stripWS_append, stripWS_trim, List.flatten_cons,
          List.flatten_append, List.append_assoc]

theorem mergeLoop_ne_nil :
    ∀ (chunks merged : List (List Char)) (current : List Char),
      merged ≠ [] ∨ current ≠ [] ∨ chunks ≠ [] →
      mergeLoop chunks merged current ≠ [] := by
  intro chunks
  induction chunks with
  | nil =>
    intro merged current h
    unfold mergeLoop
    by_cases hc : current.isEmpty
    · rw [if_pos hc]
      rw [List.isEmpty_iff] at hc
      rcases h with h | h | h
      · exact h
      · exact absurd hc h
      · exact absurd rfl h
    · rw [if_neg hc]
      simp
  | cons chunk rest ih =>
    intro merged current h
    unfold mergeLoop
    by_cases hlen : (current ++ chunk).length < 300
    · rw [if_pos hlen]
      apply ih
      right
      left
      simp
    · rw [if_neg hlen]
      by_cases hc : current.isEmpty
      · rw [if_pos hc]
        apply ih
        right
        left
        rw [List.isEmpty_iff] at hc
        subst hc
        intro hchunk
        subst hchunk
        simp at hlen
      · rw [if_neg hc]
        apply ih
        left
        simp

theorem splitTextIntoChunks_noTerm (text : List Char)
    (h : ∀ c ∈ text, isTerm c = false) :
    splitTextIntoChunks text = [trim text] := by
  have hm : mergeLoop [text] [] [] = [trim text] := by
    unfold mergeLoop
    by_cases hlen : (([] : List Char) ++ text).length < 300
    · rw [if_pos hlen]
      unfold mergeLoop
      rw [if_neg (by simp)]
      simp [trim_cons_space]
    · rw [if_neg hlen]
      unfold mergeLoop
      rw [if_neg ?hne]
      case hne =>
        rw [List.nil_append] at hlen
        intro hemp
        rw [List.isEmpty_iff] at hemp
        subst hemp
        simp at hlen
      rfl
  unfold splitTextIntoChunks
  rw [regexMatches_eq_nil_of_noTerm text h]
  dsimp only
  rw [show (if ([] : List (List Char)).isEmpty then [text] else []) = [text] from rfl]
  rw [hm]
  rw [if_neg (by simp)]

/-- C1 (amended): splitTextIntoChunks always returns a non-empty
sequence, and the input decomposes as lead ++ core ++ tail with lead a
run of terminator characters and tail free of terminators, such that the
concatenation of the returned chunks reproduces, up to whitespace
(inserted separators and trimming), exactly the core: a leading
terminator run and a trailing terminator-less fragment of the input are
dropped rather than reproduced.  When the text contains no terminator at
all the whole text (trimmed) is returned as the single chunk. -/
theorem splitTextIntoChunks_content (text : List Char) :
    splitTextIntoChunks text ≠ [] ∧
    (∃ lead tail, (∀ c ∈ lead, isTerm c = true) ∧ (∀ c ∈ tail, isTerm c = false) ∧
      stripWS text =
        stripWS lead ++ stripWS (splitTextIntoChunks text).flatten ++ stripWS tail) ∧
    ((∀ c ∈ text, isTerm c = false) → splitTextIntoChunks text = [trim text]) := by
  have hchunks_ne :
      (if (regexMatches text).isEmpty then [text] else regexMatches text) ≠ [] := by
    by_cases he : (regexMatches text).isEmpty
    · rw [if_pos he]
      simp
    · rw [if_neg he]
      intro hnil
      exact he (by rw [hnil]; rfl)
  have hmres := mergeLoop_ne_nil
    (if (regexMatches text).isEmpty then [text] else regexMatches text) [] []
    (Or.inr (Or.inr hchunks_ne))
  have hresult : splitTextIntoChunks text =
      mergeLoop (if (regexMatches text).isEmpty then [text]
        else regexMatches text) [] [] := by
    unfold splitTextIntoChunks
    dsimp only
    rw [if_neg (fun hEmp => hmres (List.isEmpty_iff.mp hEmp))]
  refine ⟨?_, ?_, splitTextIntoChunks_noTerm text⟩
  · rw [hresult]
    exact hmres
  · cases hms : regexMatches text with
    | nil =>
      have hres : splitTextIntoChunks text = mergeLoop [text] [] [] := by
        rw [hresult, hms]
        rfl
      refine ⟨[], [], by simp, by simp, ?_⟩
      rw [hres, mergeLoop_content [text] [] []]
      simp [stripWS]
    | cons m ms =>
      obtain ⟨lead, tail, h1, h2, heq⟩ := regexMatches_structure text
      have hres : splitTextIntoChunks text = mergeLoop (m :: ms) [] [] := by
        rw [hresult, hms]
        rfl
      have hflat : stripWS ((splitTextIntoChunks text).flatten) =
          stripWS ((regexMatches text).flatten) := by
        rw [hres, mergeLoop_content (m :: ms) [] [], hms]
        simp
      refine ⟨lead, tail, h1, h2, ?_⟩
      rw [hflat]
      conv_lhs => rw [heq]
      rw [stripWS_append, stripWS_append]

/-- Witness for C1's no-terminator clause at a concrete input. -/
theorem splitTextIntoChunks_content_witness :
    splitTextIntoChunks ['h', 'i'] = [trim ['h', 'i']] :=
  (splitTextIntoChunks_content ['h', 'i']).2.2 (by decide)

/-- C1 counterexample: on the input a.b the segmenter returns the single
chunk a. and drops the trailing b, so the concatenation of the chunks
does not reproduce the input even ignoring whitespace. -/
theorem splitTextIntoChunks_drops_tail_cex :
    splitTextIntoChunks ['a', '.', 'b'] = [['a', '.']] ∧
    stripWS (splitTextIntoChunks ['a', '.', 'b']).flatten ≠
      stripWS ['a', '.', 'b'] := by
  constructor <;> decide
